import Mathlib

/-!
Verification development for the LSE (log-sum-exp) golden reference model.

The definitions below are shallow embeddings of the Python sources:
  * `scripts/lse_test_generator.py`         (adaptive LSE engine and SIMD test generation)
  * `scripts/python/generate_clut_values.py` (CLUT correction table builder; floats modelled as ℝ)
  * `scripts/python/generate_lse_add_vectors.py` (reference vector generator; floats modelled as ℝ)

Machine integers are modelled as `Nat`/`Int` with explicit masking, exactly as
Python's unbounded integers behave in the source.  Python floats are modelled
as real numbers.
-/

namespace LseModel

/-! ### Adaptive parameters (from `lse_add_adaptive`, lse_test_generator.py lines 14-17)

In Python, `2 ** (width - 4)` is an integer only for `width ≥ 4`; all widths used
by the generators (6, 12, 24) satisfy this, and the theorems below carry a
`4 ≤ width` hypothesis where the threshold matters. -/

/-- `NEG_INF_VAL = 1 << (width - 1)` : MSB=1, others=0. -/
def NEG_INF_VAL (width : ℕ) : ℕ := 1 <<< (width - 1)

/-- `SMALL_CORRECTION = width // 8` : adaptive correction based on width. -/
def SMALL_CORRECTION (width : ℕ) : ℕ := width / 8

/-- `DIFF_THRESHOLD = -(2 ** (width - 4))` : adaptive threshold. -/
def DIFF_THRESHOLD (width : ℕ) : ℤ := -((2 : ℤ) ^ (width - 4))

/-- `MAX_VAL = (1 << width) - 1` : maximum value for the width. -/
def MAX_VAL (width : ℕ) : ℕ := (1 <<< width) - 1

/-- Embedding of `lse_add_adaptive(operand_a, operand_b, width)`
(lse_test_generator.py lines 8-53).  `diff` is a signed difference, hence `ℤ`;
`diff > DIFF_THRESHOLD` is written `DIFF_THRESHOLD < diff`. -/
def lse_add_adaptive (operand_a operand_b width : ℕ) : ℕ :=
  if operand_a = NEG_INF_VAL width ∨ operand_b = NEG_INF_VAL width then
    if operand_a = NEG_INF_VAL width ∧ operand_b = NEG_INF_VAL width then
      NEG_INF_VAL width            -- -inf + (-inf) = -inf
    else if operand_a = NEG_INF_VAL width then
      operand_b                    -- -inf + x = x
    else
      operand_a                    -- x + (-inf) = x
  else
    let larger := if operand_b ≤ operand_a then operand_a else operand_b
    let smaller := if operand_b ≤ operand_a then operand_b else operand_a
    let diff : ℤ := (smaller : ℤ) - (larger : ℤ)
    let result :=
      if DIFF_THRESHOLD width < diff then
        let threshold := MAX_VAL width - SMALL_CORRECTION width
        if larger ≤ threshold then larger + SMALL_CORRECTION width
        else MAX_VAL width
      else larger
    result &&& MAX_VAL width

theorem NEG_INF_VAL_eq (w : ℕ) : NEG_INF_VAL w = 2 ^ (w - 1) := by
  simp [NEG_INF_VAL, Nat.one_shiftLeft]

theorem MAX_VAL_eq (w : ℕ) : MAX_VAL w = 2 ^ w - 1 := by
  simp [MAX_VAL, Nat.one_shiftLeft]

/-- The non-sentinel core of `lse_add_adaptive`, written with `max`/`min`. -/
theorem lse_add_eq_core (a b w : ℕ)
    (has : a ≠ NEG_INF_VAL w) (hbs : b ≠ NEG_INF_VAL w) :
    lse_add_adaptive a b w =
      (if DIFF_THRESHOLD w < ((min a b : ℕ) : ℤ) - ((max a b : ℕ) : ℤ) then
        if max a b ≤ MAX_VAL w - SMALL_CORRECTION w then
          max a b + SMALL_CORRECTION w
        else MAX_VAL w
       else max a b) &&& MAX_VAL w := by
  unfold lse_add_adaptive
  rw [if_neg (by tauto)]
  by_cases hba : b ≤ a
  · simp only [if_pos hba, Nat.max_eq_left hba, Nat.min_eq_right hba]
  · have hab : a ≤ b := Nat.le_of_lt (Nat.lt_of_not_le hba)
    simp only [if_neg hba, Nat.max_eq_right hab, Nat.min_eq_left hab]

/-- C1 — Sentinel identity of `lse_add`: with `NEG_INF = 2^(W-1)`, for every
valid width `W`, `lse_add(NEG_INF, NEG_INF, W) = NEG_INF`, and for every
non-sentinel `W`-bit operand `x`, `lse_add(NEG_INF, x, W) = x` and
`lse_add(x, NEG_INF, W) = x`. -/
theorem lse_sentinel_identity (w x : ℕ) (hw : 4 ≤ w) (hx : x < 2 ^ w)
    (hxs : x ≠ 2 ^ (w - 1)) :
    lse_add_adaptive (2 ^ (w - 1)) (2 ^ (w - 1)) w = 2 ^ (w - 1) ∧
    lse_add_adaptive (2 ^ (w - 1)) x w = x ∧
    lse_add_adaptive x (2 ^ (w - 1)) w = x := by
  have hs : NEG_INF_VAL w = 2 ^ (w - 1) := NEG_INF_VAL_eq w
  refine ⟨?_, ?_, ?_⟩ <;> unfold lse_add_adaptive <;> simp [hs, hxs]

theorem lse_sentinel_identity_witness :
    4 ≤ 6 ∧ (5 : ℕ) < 2 ^ 6 ∧ (5 : ℕ) ≠ 2 ^ (6 - 1) ∧
    (lse_add_adaptive (2 ^ (6 - 1)) (2 ^ (6 - 1)) 6 = 2 ^ (6 - 1) ∧
     lse_add_adaptive (2 ^ (6 - 1)) 5 6 = 5 ∧
     lse_add_adaptive 5 (2 ^ (6 - 1)) 6 = 5) :=
  ⟨by decide, by decide, by decide,
    lse_sentinel_identity 6 5 (by decide) (by decide) (by decide)⟩

/-- C2 — Commutativity of `lse_add`: for every width `W` and all operands
`a`, `b` (sentinel or not), `lse_add(a, b, W) = lse_add(b, a, W)`. -/
theorem lse_add_comm (a b w : ℕ) :
    lse_add_adaptive a b w = lse_add_adaptive b a w := by
  by_cases ha : a = NEG_INF_VAL w <;> by_cases hb : b = NEG_INF_VAL w
  · rw [ha, hb]
  · unfold lse_add_adaptive
    simp [ha, hb]
  · unfold lse_add_adaptive
    simp [ha, hb]
  · rw [lse_add_eq_core a b w ha hb, lse_add_eq_core b a w hb ha,
      Nat.max_comm b a, Nat.min_comm b a]

/-! ### Range invariant helpers -/

theorem and_MAX_VAL_eq_mod (x w : ℕ) : x &&& MAX_VAL w = x % 2 ^ w := by
  rw [MAX_VAL_eq, Nat.and_pow_two_sub_one_eq_mod]

/-- Any `W`-bit inputs produce a `W`-bit output (shared range helper). -/
theorem lse_add_lt (a b w : ℕ) (hw : 1 ≤ w) (ha : a < 2 ^ w) (hb : b < 2 ^ w) :
    lse_add_adaptive a b w < 2 ^ w := by
  have hneg : NEG_INF_VAL w < 2 ^ w := by
    rw [NEG_INF_VAL_eq]
    exact Nat.pow_lt_pow_right one_lt_two (by omega)
  unfold lse_add_adaptive
  split
  · split
    · exact hneg
    · split
      · exact hb
      · exact ha
  · rw [and_MAX_VAL_eq_mod]
    exact Nat.mod_lt _ (Nat.pow_pos (by norm_num))

/-- C3 — Threshold tie-break is exclusive: for non-sentinel `W`-bit operands
whose signed difference `min(a,b) - max(a,b)` equals exactly
`DIFF_THRESHOLD = -(2^(W-4))`, `lse_add` returns `max(a,b)` unchanged
(the comparison is strict `>`, so the boundary takes the negligible branch). -/
theorem lse_threshold_tiebreak (a b w : ℕ) (hw : 4 ≤ w)
    (ha : a < 2 ^ w) (hb : b < 2 ^ w)
    (has : a ≠ NEG_INF_VAL w) (hbs : b ≠ NEG_INF_VAL w)
    (hd : ((min a b : ℕ) : ℤ) - ((max a b : ℕ) : ℤ) = DIFF_THRESHOLD w) :
    lse_add_adaptive a b w = max a b := by
  rw [lse_add_eq_core a b w has hbs, hd, if_neg (lt_irrefl _),
    and_MAX_VAL_eq_mod, Nat.mod_eq_of_lt (by omega)]

theorem lse_threshold_tiebreak_witness :
    4 ≤ 6 ∧ (10 : ℕ) < 2 ^ 6 ∧ (6 : ℕ) < 2 ^ 6 ∧
    (10 : ℕ) ≠ NEG_INF_VAL 6 ∧ (6 : ℕ) ≠ NEG_INF_VAL 6 ∧
    ((min 10 6 : ℕ) : ℤ) - ((max 10 6 : ℕ) : ℤ) = DIFF_THRESHOLD 6 ∧
    lse_add_adaptive 10 6 6 = max 10 6 :=
  ⟨by decide, by decide, by decide, by decide, by decide, by decide,
    lse_threshold_tiebreak 10 6 6 (by decide) (by decide) (by decide)
      (by decide) (by decide) (by decide)⟩

/-- C4 — Width-range invariant: for every valid width `W` and operands in
`[0, 2^W - 1]`, the result of `lse_add` lies in `[0, 2^W - 1]` (the result is
masked to `W` bits and saturation replaces wraparound). -/
theorem lse_width_range (a b w : ℕ) (hw : 4 ≤ w)
    (ha : a ≤ 2 ^ w - 1) (hb : b ≤ 2 ^ w - 1) :
    lse_add_adaptive a b w ≤ 2 ^ w - 1 := by
  have h1 : (1 : ℕ) ≤ 2 ^ w := Nat.one_le_two_pow
  have := lse_add_lt a b w (by omega) (by omega) (by omega)
  omega

theorem lse_width_range_witness :
    4 ≤ 12 ∧ (0xFFF : ℕ) ≤ 2 ^ 12 - 1 ∧ (1 : ℕ) ≤ 2 ^ 12 - 1 ∧
    lse_add_adaptive 0xFFF 1 12 ≤ 2 ^ 12 - 1 :=
  ⟨by decide, by decide, by decide,
    lse_width_range 0xFFF 1 12 (by decide) (by decide) (by decide)⟩

/-- C10 — Degenerate correction at narrow widths: when `W // 8 = 0` (so
`SMALL_CORRECTION = 0`, which includes the supported SIMD lane width 6), for
all non-sentinel `W`-bit operands `lse_add(a, b, W) = max(a, b)`: both
threshold branches return the plain maximum. -/
theorem lse_narrow_width_is_max (a b w : ℕ) (hw : 4 ≤ w) (hw8 : w / 8 = 0)
    (ha : a < 2 ^ w) (hb : b < 2 ^ w)
    (has : a ≠ NEG_INF_VAL w) (hbs : b ≠ NEG_INF_VAL w) :
    lse_add_adaptive a b w = max a b := by
  have hsc : SMALL_CORRECTION w = 0 := hw8
  have hmax : max a b ≤ MAX_VAL w - SMALL_CORRECTION w := by
    rw [hsc, MAX_VAL_eq]; omega
  rw [lse_add_eq_core a b w has hbs, if_pos hmax, hsc, Nat.add_zero, ite_self,
    and_MAX_VAL_eq_mod, Nat.mod_eq_of_lt (by omega)]

theorem lse_narrow_width_is_max_witness :
    4 ≤ 6 ∧ (6 : ℕ) / 8 = 0 ∧ (3 : ℕ) < 2 ^ 6 ∧ (5 : ℕ) < 2 ^ 6 ∧
    (3 : ℕ) ≠ NEG_INF_VAL 6 ∧ (5 : ℕ) ≠ NEG_INF_VAL 6 ∧
    lse_add_adaptive 3 5 6 = max 3 5 :=
  ⟨by decide, by decide, by decide, by decide, by decide, by decide,
    lse_narrow_width_is_max 3 5 6 (by decide) (by decide) (by decide)
      (by decide) (by decide) (by decide)⟩

/-! ### SIMD unified mode (from `generate_simd_unified_tests`, lines 188-212)

The generator dispatches on `mode`: `0` is one 24-bit lane, `1` is two 12-bit
lanes, `2` is four 6-bit lanes.  The Python code has no branch for other mode
values (`exp_result` would be unbound); the embedding reuses the 4x6 branch as
the fall-through and every theorem restricts `mode ≤ 2`. -/

/-- Lane width per mode selector: (24,1), (12,2), (6,4). -/
def lane_width (mode : ℕ) : ℕ :=
  if mode = 0 then 24 else if mode = 1 then 12 else 6

/-- Lane count per mode selector. -/
def lane_count (mode : ℕ) : ℕ :=
  if mode = 0 then 1 else if mode = 1 then 2 else 4

/-- Bits `j*w .. j*w+w-1` of a word: `(word >> (j*w)) & ((1 << w) - 1)`,
exactly the unpacking arithmetic of the generator. -/
def get_lane (word j w : ℕ) : ℕ := (word >>> (j * w)) &&& ((1 <<< w) - 1)

/-- Embedding of the expected-result computation of
`generate_simd_unified_tests` for one test case. -/
def simd_unified_expected (mode x_in y_in : ℕ) : ℕ :=
  if mode = 0x00 then        -- 24-bit mode
    lse_add_adaptive x_in y_in 24
  else if mode = 0x01 then   -- 2x12b mode
    let x_ch0 := x_in &&& 0xFFF
    let x_ch1 := (x_in >>> 12) &&& 0xFFF
    let y_ch0 := y_in &&& 0xFFF
    let y_ch1 := (y_in >>> 12) &&& 0xFFF
    let exp_ch0 := lse_add_adaptive x_ch0 y_ch0 12
    let exp_ch1 := lse_add_adaptive x_ch1 y_ch1 12
    (exp_ch1 <<< 12) ||| exp_ch0
  else                       -- 4x6b mode
    let x_ch0 := x_in &&& 0x3F
    let x_ch1 := (x_in >>> 6) &&& 0x3F
    let x_ch2 := (x_in >>> 12) &&& 0x3F
    let x_ch3 := (x_in >>> 18) &&& 0x3F
    let y_ch0 := y_in &&& 0x3F
    let y_ch1 := (y_in >>> 6) &&& 0x3F
    let y_ch2 := (y_in >>> 12) &&& 0x3F
    let y_ch3 := (y_in >>> 18) &&& 0x3F
    let exp_ch0 := lse_add_adaptive x_ch0 y_ch0 6
    let exp_ch1 := lse_add_adaptive x_ch1 y_ch1 6
    let exp_ch2 := lse_add_adaptive x_ch2 y_ch2 6
    let exp_ch3 := lse_add_adaptive x_ch3 y_ch3 6
    (exp_ch3 <<< 18) ||| (exp_ch2 <<< 12) ||| (exp_ch1 <<< 6) ||| exp_ch0

/-- Disjoint or is addition: `a * 2^k ||| b = a * 2^k + b` for `b < 2^k`. -/
theorem mul_pow_lor_eq_add (a b k : ℕ) (hb : b < 2 ^ k) :
    (a * 2 ^ k) ||| b = a * 2 ^ k + b := by
  have hsh : a * 2 ^ k = a <<< k := (Nat.shiftLeft_eq a k).symm
  have hmod : ((a <<< k) ||| b) % 2 ^ k = b := by
    apply Nat.eq_of_testBit_eq
    intro i
    rcases Nat.lt_or_ge i k with h | h
    · simp [Nat.testBit_mod_two_pow, h, Nat.testBit_lor, Nat.testBit_shiftLeft,
        Nat.not_le.mpr h]
    · have hbi : b.testBit i = false :=
        Nat.testBit_lt_two_pow
          (Nat.lt_of_lt_of_le hb (Nat.pow_le_pow_right (by norm_num) h))
      simp [Nat.testBit_mod_two_pow, Nat.not_lt.mpr h, hbi]
  have hdiv : ((a <<< k) ||| b) / 2 ^ k = a := by
    rw [← Nat.shiftRight_eq_div_pow]
    apply Nat.eq_of_testBit_eq
    intro i
    have hbi : b.testBit (k + i) = false :=
      Nat.testBit_lt_two_pow
        (Nat.lt_of_lt_of_le hb (Nat.pow_le_pow_right (by norm_num) (by omega)))
    simp [Nat.testBit_shiftRight, Nat.testBit_lor, Nat.testBit_shiftLeft, hbi,
      Nat.le_add_right]
  have hdm := Nat.div_add_mod ((a <<< k) ||| b) (2 ^ k)
  rw [hdiv, hmod, Nat.mul_comm (2 ^ k) a, hsh] at hdm
  rw [hsh]
  omega

theorem get_lane_eq_div_mod (x j w : ℕ) :
    get_lane x j w = x / 2 ^ (j * w) % 2 ^ w := by
  rw [get_lane, Nat.one_shiftLeft, Nat.and_pow_two_sub_one_eq_mod,
    Nat.shiftRight_eq_div_pow]

theorem and_mask_lt (x m w : ℕ) (hm : m = 2 ^ w - 1) : x &&& m < 2 ^ w := by
  subst hm
  rw [Nat.and_pow_two_sub_one_eq_mod]
  exact Nat.mod_lt _ (Nat.pow_pos (by norm_num))

/-- Lane homomorphism for the 2x12b mode: lane `j` of the packed result is the
12-bit `lse_add` of lane `j` of the operands. -/
theorem simd_2x12_lane (x y j : ℕ) (hj : j < 2) :
    get_lane (simd_unified_expected 1 x y) j 12
      = lse_add_adaptive (get_lane x j 12) (get_lane y j 12) 12 := by
  have h12 : (0xFFF : ℕ) = 2 ^ 12 - 1 := by norm_num
  have hx0 : x &&& 0xFFF = x % 2 ^ 12 := by
    rw [h12, Nat.and_pow_two_sub_one_eq_mod]
  have hy0 : y &&& 0xFFF = y % 2 ^ 12 := by
    rw [h12, Nat.and_pow_two_sub_one_eq_mod]
  have hx1 : (x >>> 12) &&& 0xFFF = x / 2 ^ 12 % 2 ^ 12 := by
    rw [h12, Nat.and_pow_two_sub_one_eq_mod, Nat.shiftRight_eq_div_pow]
  have hy1 : (y >>> 12) &&& 0xFFF = y / 2 ^ 12 % 2 ^ 12 := by
    rw [h12, Nat.and_pow_two_sub_one_eq_mod, Nat.shiftRight_eq_div_pow]
  have hmod : ∀ z : ℕ, z % 2 ^ 12 < 2 ^ 12 := fun z => Nat.mod_lt _ (by norm_num)
  have e0lt : lse_add_adaptive (x % 2 ^ 12) (y % 2 ^ 12) 12 < 2 ^ 12 :=
    lse_add_lt _ _ _ (by norm_num) (hmod x) (hmod y)
  have e1lt : lse_add_adaptive (x / 2 ^ 12 % 2 ^ 12) (y / 2 ^ 12 % 2 ^ 12) 12
      < 2 ^ 12 :=
    lse_add_lt _ _ _ (by norm_num) (hmod _) (hmod _)
  have hunf : simd_unified_expected 1 x y =
      (lse_add_adaptive ((x >>> 12) &&& 0xFFF) ((y >>> 12) &&& 0xFFF) 12 <<< 12)
        ||| lse_add_adaptive (x &&& 0xFFF) (y &&& 0xFFF) 12 := rfl
  rw [hunf, hx0, hy0, hx1, hy1, Nat.shiftLeft_eq, mul_pow_lor_eq_add _ _ _ e0lt]
  interval_cases j
  · rw [get_lane_eq_div_mod, get_lane_eq_div_mod, get_lane_eq_div_mod]
    simp only [Nat.zero_mul, pow_zero, Nat.div_one]
    omega
  · rw [get_lane_eq_div_mod, get_lane_eq_div_mod, get_lane_eq_div_mod]
    simp only [Nat.one_mul]
    omega

/-- Disjoint or is addition, divisibility form. -/
theorem lor_eq_add_of_dvd (a b k : ℕ) (ha : 2 ^ k ∣ a) (hb : b < 2 ^ k) :
    a ||| b = a + b := by
  obtain ⟨c, rfl⟩ := ha
  rw [Nat.mul_comm (2 ^ k) c, mul_pow_lor_eq_add c b k hb]

/-- Lane homomorphism for the 4x6b mode. -/
theorem simd_4x6_lane (x y j : ℕ) (hj : j < 4) :
    get_lane (simd_unified_expected 2 x y) j 6
      = lse_add_adaptive (get_lane x j 6) (get_lane y j 6) 6 := by
  have h6 : (0x3F : ℕ) = 2 ^ 6 - 1 := by norm_num
  have hm0 : ∀ z : ℕ, z &&& 0x3F = z % 2 ^ 6 := fun z => by
    rw [h6, Nat.and_pow_two_sub_one_eq_mod]
  have hm1 : ∀ z : ℕ, (z >>> 6) &&& 0x3F = z / 2 ^ 6 % 2 ^ 6 := fun z => by
    rw [hm0, Nat.shiftRight_eq_div_pow]
  have hm2 : ∀ z : ℕ, (z >>> 12) &&& 0x3F = z / 2 ^ 12 % 2 ^ 6 := fun z => by
    rw [hm0, Nat.shiftRight_eq_div_pow]
  have hm3 : ∀ z : ℕ, (z >>> 18) &&& 0x3F = z / 2 ^ 18 % 2 ^ 6 := fun z => by
    rw [hm0, Nat.shiftRight_eq_div_pow]
  have hmod : ∀ z : ℕ, z % 2 ^ 6 < 2 ^ 6 := fun z => Nat.mod_lt _ (by norm_num)
  have hunf : simd_unified_expected 2 x y =
      (lse_add_adaptive ((x >>> 18) &&& 0x3F) ((y >>> 18) &&& 0x3F) 6 <<< 18) |||
        (lse_add_adaptive ((x >>> 12) &&& 0x3F) ((y >>> 12) &&& 0x3F) 6 <<< 12) |||
        (lse_add_adaptive ((x >>> 6) &&& 0x3F) ((y >>> 6) &&& 0x3F) 6 <<< 6) |||
        lse_add_adaptive (x &&& 0x3F) (y &&& 0x3F) 6 := rfl
  rw [hunf, hm0 x, hm0 y, hm1 x, hm1 y, hm2 x, hm2 y, hm3 x, hm3 y]
  set e0 := lse_add_adaptive (x % 2 ^ 6) (y % 2 ^ 6) 6 with he0
  set e1 := lse_add_adaptive (x / 2 ^ 6 % 2 ^ 6) (y / 2 ^ 6 % 2 ^ 6) 6 with he1
  set e2 := lse_add_adaptive (x / 2 ^ 12 % 2 ^ 6) (y / 2 ^ 12 % 2 ^ 6) 6 with he2
  set e3 := lse_add_adaptive (x / 2 ^ 18 % 2 ^ 6) (y / 2 ^ 18 % 2 ^ 6) 6 with he3
  have e0lt : e0 < 2 ^ 6 := lse_add_lt _ _ _ (by norm_num) (hmod _) (hmod _)
  have e1lt : e1 < 2 ^ 6 := lse_add_lt _ _ _ (by norm_num) (hmod _) (hmod _)
  have e2lt : e2 < 2 ^ 6 := lse_add_lt _ _ _ (by norm_num) (hmod _) (hmod _)
  have e3lt : e3 < 2 ^ 6 := lse_add_lt _ _ _ (by norm_num) (hmod _) (hmod _)
  rw [Nat.shiftLeft_eq e3 18, Nat.shiftLeft_eq e2 12, Nat.shiftLeft_eq e1 6]
  rw [lor_eq_add_of_dvd (e3 * 2 ^ 18) (e2 * 2 ^ 12) 18
      ⟨e3, Nat.mul_comm _ _⟩ (by omega)]
  rw [lor_eq_add_of_dvd (e3 * 2 ^ 18 + e2 * 2 ^ 12) (e1 * 2 ^ 6) 12
      ⟨e3 * 2 ^ 6 + e2, by ring⟩ (by omega)]
  rw [lor_eq_add_of_dvd (e3 * 2 ^ 18 + e2 * 2 ^ 12 + e1 * 2 ^ 6) e0 6
      ⟨e3 * 2 ^ 12 + e2 * 2 ^ 6 + e1, by ring⟩ (by omega)]
  interval_cases j
  · rw [get_lane_eq_div_mod, get_lane_eq_div_mod, get_lane_eq_div_mod]
    simp only [Nat.zero_mul, pow_zero, Nat.div_one]
    omega
  · rw [get_lane_eq_div_mod, get_lane_eq_div_mod, get_lane_eq_div_mod]
    simp only [Nat.one_mul]
    omega
  · rw [get_lane_eq_div_mod, get_lane_eq_div_mod, get_lane_eq_div_mod]
    have h26 : (2 * 6 : ℕ) = 12 := rfl
    rw [h26]
    omega
  · rw [get_lane_eq_div_mod, get_lane_eq_div_mod, get_lane_eq_div_mod]
    have h36 : (3 * 6 : ℕ) = 18 := rfl
    rw [h36]
    omega

/-- Lane homomorphism for the single-lane 24-bit mode. -/
theorem simd_24_lane (x y j : ℕ) (hx : x < 2 ^ 24) (hy : y < 2 ^ 24)
    (hj : j < 1) :
    get_lane (simd_unified_expected 0 x y) j 24
      = lse_add_adaptive (get_lane x j 24) (get_lane y j 24) 24 := by
  have hj0 : j = 0 := by omega
  subst hj0
  have hr := lse_add_lt x y 24 (by norm_num) hx hy
  have hunf : simd_unified_expected 0 x y = lse_add_adaptive x y 24 := rfl
  rw [hunf, get_lane_eq_div_mod, get_lane_eq_div_mod, get_lane_eq_div_mod]
  simp only [Nat.zero_mul, pow_zero, Nat.div_one]
  rw [Nat.mod_eq_of_lt hr, Nat.mod_eq_of_lt hx, Nat.mod_eq_of_lt hy]

/-- C5 — Lane independence of the SIMD operation: for every supported
(lane_width, lane_count) configuration — mode 0 = (24,1), mode 1 = (12,2),
mode 2 = (6,4) — if two pairs of 24-bit operand words agree on the bits of
lane `j`, the per-lane unpack / `lse_add` / repack computation produces result
words that agree on the bits of lane `j`; changing other lanes' operands never
changes lane `j`'s result. -/
theorem simd_lane_independence (mode x y x' y' j : ℕ) (hm : mode ≤ 2)
    (hx : x < 2 ^ 24) (hy : y < 2 ^ 24) (hx' : x' < 2 ^ 24) (hy' : y' < 2 ^ 24)
    (hj : j < lane_count mode)
    (hlx : get_lane x j (lane_width mode) = get_lane x' j (lane_width mode))
    (hly : get_lane y j (lane_width mode) = get_lane y' j (lane_width mode)) :
    get_lane (simd_unified_expected mode x y) j (lane_width mode)
      = get_lane (simd_unified_expected mode x' y') j (lane_width mode) := by
  interval_cases mode
  · norm_num [lane_width, lane_count] at hj hlx hly ⊢
    rw [simd_24_lane x y j hx hy (by omega), simd_24_lane x' y' j hx' hy'
      (by omega), hlx, hly]
  · norm_num [lane_width, lane_count] at hj hlx hly ⊢
    rw [simd_2x12_lane x y j hj, simd_2x12_lane x' y' j hj, hlx, hly]
  · norm_num [lane_width, lane_count] at hj hlx hly ⊢
    rw [simd_4x6_lane x y j hj, simd_4x6_lane x' y' j hj, hlx, hly]

theorem simd_lane_independence_witness :
    (1 : ℕ) ≤ 2 ∧ (0x201100 : ℕ) < 2 ^ 24 ∧ (0x100050 : ℕ) < 2 ^ 24 ∧
    (0x200100 : ℕ) < 2 ^ 24 ∧ (0 : ℕ) < lane_count 1 ∧
    get_lane 0x201100 0 (lane_width 1) = get_lane 0x200100 0 (lane_width 1) ∧
    get_lane 0x100050 0 (lane_width 1) = get_lane 0x100050 0 (lane_width 1) ∧
    get_lane (simd_unified_expected 1 0x201100 0x100050) 0 (lane_width 1)
      = get_lane (simd_unified_expected 1 0x200100 0x100050) 0 (lane_width 1) :=
  ⟨by decide, by decide, by decide, by decide, by decide, by decide, by decide,
    simd_lane_independence 1 0x201100 0x100050 0x200100 0x100050 0
      (by decide) (by decide) (by decide) (by decide) (by decide)
      (by decide) (by decide) (by decide)⟩

end LseModel

namespace ClutModel

/-! ### CLUT correction table builder (generate_clut_values.py)

Python float arithmetic is modelled by real numbers.  `np.linspace(0,
1 - 1/entries, entries)` produces exactly the points `i / entries` for
`i = 0 .. entries-1` (for `entries ≥ 1`), which is how the sample points are
written below.  For `entries = 0` the Python script raises `ZeroDivisionError`,
so all theorems assume `1 ≤ entries` where it matters. -/

/-- `lse_exact(x) = log2(1 + 2**x)` (lines 23-33). -/
noncomputable def lse_exact (x : ℝ) : ℝ := Real.logb 2 (1 + (2 : ℝ) ^ x)

/-- `lse_approximation(x) = x`, the first-order hardware approximation. -/
noncomputable def lse_approximation (x : ℝ) : ℝ := x

/-- `compute_correction_error(x) = lse_exact(x) - lse_approximation(x)`. -/
noncomputable def compute_correction_error (x : ℝ) : ℝ :=
  lse_exact x - lse_approximation x

/-- Sample points `np.linspace(0, 1 - 1/entries, entries) = [i/entries]`. -/
noncomputable def clut_sample_points (entries : ℕ) : List ℝ :=
  (List.range entries).map (fun (i : ℕ) => (i : ℝ) / (entries : ℝ))

/-- `corrections = [compute_correction_error(x) for x in sample_points]`. -/
noncomputable def clut_corrections (entries : ℕ) : List ℝ :=
  (clut_sample_points entries).map compute_correction_error

/-- Python's builtin `max` over a nonempty list. -/
noncomputable def pymax : List ℝ → ℝ
  | [] => 0
  | x :: xs => xs.foldl max x

/-- `max_correction = max(corrections)` (line 84). -/
noncomputable def clut_max_correction (entries : ℕ) : ℝ :=
  pymax (clut_corrections entries)

/-- The quantization loop (lines 87-94): for each correction,
`scaled = corr / max_correction * (2**bit_width - 1)`,
`quantized = int(round(scaled))`, append `min(quantized, max_int_value)`. -/
noncomputable def clut_quantized (entries bit_width : ℕ) : List ℤ :=
  (clut_corrections entries).map (fun corr =>
    min (round (corr / clut_max_correction entries * ((2 : ℝ) ^ bit_width - 1)))
      ((2 : ℤ) ^ bit_width - 1))

theorem compute_correction_error_nonneg (x : ℝ) :
    0 ≤ compute_correction_error x := by
  have hpos : (0 : ℝ) < (2 : ℝ) ^ x := Real.rpow_pos_of_pos (by norm_num) x
  have hy : (0 : ℝ) < 1 + (2 : ℝ) ^ x := by linarith
  have hle : x ≤ Real.logb 2 (1 + (2 : ℝ) ^ x) :=
    (Real.le_logb_iff_rpow_le (by norm_num) hy).mpr (by linarith)
  simp only [compute_correction_error, lse_exact, lse_approximation]
  linarith

theorem compute_correction_error_le_one (x : ℝ) (hx : 0 ≤ x) :
    compute_correction_error x ≤ 1 := by
  have hpos : (0 : ℝ) < (2 : ℝ) ^ x := Real.rpow_pos_of_pos (by norm_num) x
  have hy : (0 : ℝ) < 1 + (2 : ℝ) ^ x := by linarith
  have hone : (1 : ℝ) ≤ (2 : ℝ) ^ x := by
    have h := Real.rpow_le_rpow_of_exponent_le (by norm_num : (1:ℝ) ≤ 2) hx
    rwa [Real.rpow_zero] at h
  have hsum : 1 + (2 : ℝ) ^ x ≤ (2 : ℝ) ^ (1 + x) := by
    rw [Real.rpow_add (by norm_num : (0:ℝ) < 2), Real.rpow_one]
    linarith
  have hle : Real.logb 2 (1 + (2 : ℝ) ^ x) ≤ 1 + x :=
    (Real.logb_le_iff_le_rpow (by norm_num) hy).mpr hsum
  simp only [compute_correction_error, lse_exact, lse_approximation]
  linarith

theorem compute_correction_error_zero : compute_correction_error 0 = 1 := by
  have h2 : (1 : ℝ) + (2 : ℝ) ^ (0 : ℝ) = 2 := by
    rw [Real.rpow_zero]
    norm_num
  simp only [compute_correction_error, lse_exact, lse_approximation, h2]
  rw [Real.logb_self_eq_one (by norm_num)]
  norm_num

theorem le_foldl_max (l : List ℝ) (a : ℝ) : a ≤ l.foldl max a := by
  induction l generalizing a with
  | nil => simp
  | cons x xs ih => exact le_trans (le_max_left a x) (ih (max a x))

theorem mem_le_foldl_max (l : List ℝ) (a b : ℝ) (hb : b ∈ l) :
    b ≤ l.foldl max a := by
  induction l generalizing a with
  | nil => cases hb
  | cons x xs ih =>
    rcases List.mem_cons.mp hb with h | h
    · subst h
      exact le_trans (le_max_right a b) (le_foldl_max xs _)
    · exact ih _ h

theorem foldl_max_le (l : List ℝ) (a c : ℝ) (ha : a ≤ c)
    (h : ∀ b ∈ l, b ≤ c) : l.foldl max a ≤ c := by
  induction l generalizing a with
  | nil => simpa
  | cons x xs ih =>
    exact ih (max a x) (max_le ha (h x (by simp)))
      (fun b hb => h b (by simp [hb]))

theorem pymax_eq_of_mem_of_le (l : List ℝ) (m : ℝ) (hm : m ∈ l)
    (hle : ∀ b ∈ l, b ≤ m) : pymax l = m := by
  cases l with
  | nil => cases hm
  | cons x xs =>
    apply le_antisymm
    · exact foldl_max_le xs x m (hle x (by simp)) (fun b hb => hle b (by simp [hb]))
    · rcases List.mem_cons.mp hm with h | h
      · subst h
        exact le_foldl_max xs m
      · exact mem_le_foldl_max xs x m h

/-- `e` is maximal at the sample point 0, where it equals 1; hence
`max_correction = 1` for the 16-entry build. -/
theorem clut_max_correction_16 : clut_max_correction 16 = 1 := by
  apply pymax_eq_of_mem_of_le
  · have h0 : (0 : ℝ) ∈ clut_sample_points 16 := by
      simp only [clut_sample_points, List.mem_map]
      refine ⟨0, ?_, ?_⟩
      · exact List.mem_range.mpr (by norm_num)
      · norm_num
    simp only [clut_corrections, List.mem_map]
    exact ⟨0, h0, compute_correction_error_zero⟩
  · intro b hb
    obtain ⟨xp, hxp, rfl⟩ := List.mem_map.mp hb
    obtain ⟨i, _, rfl⟩ := List.mem_map.mp hxp
    exact compute_correction_error_le_one _
      (div_nonneg (Nat.cast_nonneg _) (Nat.cast_nonneg _))

theorem clut_quantized_getD (entries bits i : ℕ) (hi : i < entries) :
    (clut_quantized entries bits).getD i 0 =
      min (round (compute_correction_error ((i : ℝ) / (entries : ℝ)) /
          clut_max_correction entries * ((2 : ℝ) ^ bits - 1)))
        ((2 : ℤ) ^ bits - 1) := by
  simp only [clut_quantized, clut_corrections, clut_sample_points,
    List.map_map, List.getD_eq_getElem?_getD, List.getElem?_map,
    List.getElem?_range hi, Option.map_some', Option.getD_some,
    Function.comp_apply]

/-- C6 — CLUT quantization formula: for `entries = 16`, `bit_width = 10`, the
sample points are `x_i = i/16` and every table value equals
`round(e(x_i) / max_error * (2^10 - 1))` clamped to `[0, 2^10 - 1]`; in
particular all quantized values lie in `[0, 1023]`. -/
theorem clut_quantization_formula (i : ℕ) (hi : i < 16) :
    (clut_quantized 16 10).getD i 0
        = max 0 (min (round (compute_correction_error ((i : ℝ) / 16) /
            clut_max_correction 16 * ((2 : ℝ) ^ (10 : ℕ) - 1)))
            ((2 : ℤ) ^ (10 : ℕ) - 1)) ∧
    0 ≤ (clut_quantized 16 10).getD i 0 ∧
    (clut_quantized 16 10).getD i 0 ≤ 2 ^ 10 - 1 := by
  have hg := clut_quantized_getD 16 10 i hi
  have hmax : clut_max_correction 16 = 1 := clut_max_correction_16
  have h0 : 0 ≤ compute_correction_error ((i : ℝ) / 16) :=
    compute_correction_error_nonneg _
  have h1 : compute_correction_error ((i : ℝ) / 16) ≤ 1 :=
    compute_correction_error_le_one _ (by positivity)
  rw [show ((16 : ℕ) : ℝ) = (16 : ℝ) by norm_num] at hg
  rw [hg, hmax]
  set c := compute_correction_error ((i : ℝ) / 16) with hc
  have hs : c / 1 * ((2 : ℝ) ^ (10 : ℕ) - 1) = c * 1023 := by norm_num
  rw [hs]
  have hr0 : 0 ≤ round (c * 1023) := by
    rw [round_eq]
    exact Int.floor_nonneg.mpr (by nlinarith)
  have hr1 : round (c * 1023) ≤ 1023 := by
    rw [round_eq]
    have h2 : ⌊c * 1023 + 1 / 2⌋ < (1024 : ℤ) :=
      Int.floor_lt.mpr (by push_cast; nlinarith)
    omega
  have hmin : min (round (c * 1023)) ((2 : ℤ) ^ (10 : ℕ) - 1) = round (c * 1023) := by
    rw [min_eq_left (by omega)]
  rw [hmin]
  refine ⟨by rw [max_eq_right hr0], hr0, by omega⟩

theorem clut_quantization_formula_witness :
    (3 : ℕ) < 16 ∧
    ((clut_quantized 16 10).getD 3 0
        = max 0 (min (round (compute_correction_error ((3 : ℝ) / 16) /
            clut_max_correction 16 * ((2 : ℝ) ^ (10 : ℕ) - 1)))
            ((2 : ℤ) ^ (10 : ℕ) - 1)) ∧
      0 ≤ (clut_quantized 16 10).getD 3 0 ∧
      (clut_quantized 16 10).getD 3 0 ≤ 2 ^ 10 - 1) :=
  ⟨by decide, clut_quantization_formula 3 (by decide)⟩

/-- Shared evaluation of the table entry at sample index 0: `e(0) = 1` is the
maximum error, so it scales to the full-scale code `1023`. -/
theorem clut_quantized_at_zero : (clut_quantized 16 10).getD 0 0 = 1023 := by
  rw [clut_quantized_getD 16 10 0 (by norm_num), clut_max_correction_16]
  rw [show ((0 : ℕ) : ℝ) / ((16 : ℕ) : ℝ) = 0 by norm_num,
    compute_correction_error_zero]
  rw [show (1 : ℝ) / 1 * ((2 : ℝ) ^ (10 : ℕ) - 1) = ((1023 : ℤ) : ℝ) by norm_num]
  rw [round_intCast]
  decide

/-- C7 (counterexample) — the claim "the quantized table value at sample index
0 is 0" is false: the value is 1023. -/
theorem clut_value_at_zero_counterexample :
    (clut_quantized 16 10).getD 0 0 ≠ 0 := by
  rw [clut_quantized_at_zero]
  decide

/-- C7 (amended) — for the build with `entries = 16`, `bit_width = 10`, the
quantized table value at sample index 0 is `2^10 - 1 = 1023`, the maximum:
`e(0) = 1` is the largest sampled error and scales to full code. -/
theorem clut_value_at_zero : (clut_quantized 16 10).getD 0 0 = 2 ^ 10 - 1 := by
  rw [clut_quantized_at_zero]
  decide

/-- C8 (counterexample) — `10` is not a power of two, yet the build returns a
full 10-entry table instead of failing: no `InvalidConfiguration` validation
exists in `generate_clut_values`. -/
theorem clut_no_pow2_validation :
    (∀ k : ℕ, (10 : ℕ) ≠ 2 ^ k) ∧ (clut_quantized 10 10).length = 10 := by
  constructor
  · intro k h
    rcases Nat.lt_or_ge k 4 with hk | hk
    · interval_cases k <;> omega
    · have h16 : (2 : ℕ) ^ 4 ≤ 2 ^ k := Nat.pow_le_pow_right (by norm_num) hk
      omega
  · simp only [clut_quantized, clut_corrections, clut_sample_points,
      List.length_map, List.length_range]

/-- C8 (amended) — `generate_clut_values` performs no power-of-two validation:
for every entry count `entries ≥ 1` (power of two or not) it returns a full
table of `entries` quantized values and never raises `InvalidConfiguration`. -/
theorem clut_build_total (entries bits : ℕ) (h : 1 ≤ entries) :
    (clut_quantized entries bits).length = entries := by
  simp only [clut_quantized, clut_corrections, clut_sample_points,
      List.length_map, List.length_range]

theorem clut_build_total_witness :
    (1 : ℕ) ≤ 10 ∧ (clut_quantized 10 10).length = 10 :=
  ⟨by decide, clut_build_total 10 10 (by decide)⟩

end ClutModel

namespace VectorModel

/-! ### Reference vector generator (generate_lse_add_vectors.py)

Fixed-point configuration constants (lines 30-34) and the vector builder.
Python floats are modelled as real numbers. -/

/-- `WIDTH = 24` (matches lse_add.sv). -/
def WIDTH : ℕ := 24

/-- `FRAC_BITS = 10`. -/
def FRAC_BITS : ℕ := 10

/-- `SCALE = 1 << FRAC_BITS`. -/
def SCALE : ℤ := 2 ^ FRAC_BITS

/-- `MASK = (1 << WIDTH) - 1`. -/
def MASK : ℤ := 2 ^ WIDTH - 1

/-- `NEG_INF_CODE = 1 << (WIDTH - 1)`. -/
def NEG_INF_CODE : ℤ := 2 ^ (WIDTH - 1)

/-- `real_to_fixed(value)` (lines 37-44): round to the nearest integer,
clamp below at 0, clamp above at `MASK`. -/
noncomputable def real_to_fixed (value : ℝ) : ℤ :=
  let fixed := round (value * (SCALE : ℝ))
  let fixed := if fixed < 0 then 0 else fixed
  if fixed > MASK then MASK else fixed

/-- `compute_exact_lse(a, b) = max(a,b) + log1p(2**(min-max)) / log(2)`
(lines 51-60).  The `math.isinf` guard is dropped: the real-number model
covers exactly the finite inputs the generator feeds in. -/
noncomputable def compute_exact_lse (a_real b_real : ℝ) : ℝ :=
  let max_val := max a_real b_real
  let min_val := min a_real b_real
  let delta := min_val - max_val
  max_val + Real.log (1 + (2 : ℝ) ^ delta) / Real.log 2

/-- The `ReferenceVector` dataclass (lines 63-72). -/
structure ReferenceVector where
  label : String
  operand_a : ℤ
  operand_b : ℤ
  expected : ℤ
  min_expected : ℤ
  max_expected : ℤ
  exact_value : ℝ
  error_tolerance : ℝ

/-- The `append_case` closure of `build_reference_vectors` (lines 113-132). -/
noncomputable def append_case (label : String) (a_real b_real : ℝ)
    (tolerance_lsb : ℤ) : ReferenceVector :=
  let a_fixed := real_to_fixed a_real
  let b_fixed := real_to_fixed b_real
  let exact := compute_exact_lse a_real b_real
  let expected_fixed := real_to_fixed exact
  { label := label
    operand_a := a_fixed
    operand_b := b_fixed
    expected := expected_fixed
    min_expected := max (expected_fixed - tolerance_lsb) 0
    max_expected := min (expected_fixed + tolerance_lsb) MASK
    exact_value := exact
    error_tolerance := (tolerance_lsb : ℝ) / (SCALE : ℝ) }

/-- The curated `BASE_CASES` tuple (lines 88-101). -/
def BASE_CASES : List (String × ℝ × ℝ) :=
  [("equal_5", 5.0, 5.0),
   ("close_delta_0p5", 5.0, 4.5),
   ("close_delta_1", 3.0, 2.0),
   ("medium_delta_4", 8.0, 4.0),
   ("medium_delta_5", 10.0, 5.0),
   ("large_delta_18", 20.0, 2.0),
   ("zero_zero", 0.0, 0.0),
   ("zero_vs_4", 0.0, 4.0),
   ("four_vs_zero", 4.0, 0.0),
   ("fractional_0p25", 0.25, -0.75),
   ("fractional_1p5", 1.5, 0.0),
   ("fractional_2p75", 2.75, 1.125)]

/-- `build_reference_vectors` (lines 104-144): append all base cases, then
the labelled random cases, and sort by label.  The seeded `rng.uniform`
draws are passed in as `random_cases` — the claims quantify over every
produced vector and hence over arbitrary draws; the `random_{idx:03d}`
zero-padding of the labels is immaterial. -/
noncomputable def build_reference_vectors
    (base_cases : List (String × ℝ × ℝ)) (random_cases : List (ℝ × ℝ))
    (tolerance_lsb : ℤ) : List ReferenceVector :=
  ((base_cases.map (fun c => append_case c.1 c.2.1 c.2.2 tolerance_lsb)) ++
      (random_cases.enum.map (fun c =>
        append_case ("random_" ++ toString c.1) c.2.1 c.2.2 tolerance_lsb))).mergeSort
    (fun u v => decide (u.label ≤ v.label))

theorem MASK_val : MASK = 16777215 := by decide

theorem SCALE_cast : ((SCALE : ℤ) : ℝ) = (2 : ℝ) ^ FRAC_BITS := by
  rw [SCALE]
  push_cast
  norm_num

/-- The sequential clamping of `real_to_fixed` equals a single clamp to
`[0, MASK]`. -/
theorem real_to_fixed_eq_clamp (v : ℝ) :
    real_to_fixed v = max 0 (min (round (v * (2 : ℝ) ^ FRAC_BITS)) MASK) := by
  have hM := MASK_val
  rw [real_to_fixed, ← SCALE_cast]
  split_ifs <;> omega

/-- Per-vector property of `append_case`. -/
theorem append_case_spec (label : String) (a b : ℝ) (tol : ℤ) (htol : 0 ≤ tol) :
    (append_case label a b tol).min_expected ≤ (append_case label a b tol).expected ∧
    (append_case label a b tol).expected ≤ (append_case label a b tol).max_expected ∧
    (append_case label a b tol).expected
      = max 0 (min (round ((append_case label a b tol).exact_value *
          (2 : ℝ) ^ FRAC_BITS)) MASK) := by
  have hM := MASK_val
  simp only [append_case, real_to_fixed_eq_clamp]
  refine ⟨by omega, by omega, by trivial⟩

/-- C9 — Tolerance containment: every `ReferenceVector` produced by
`build_reference_vectors` with `tolerance_lsb ≥ 0` satisfies
`min_expected ≤ expected ≤ max_expected`, and
`expected = round(exact_value * 2^FRAC_BITS)` clamped to `[0, 2^24 - 1]`. -/
theorem reference_vector_tolerance (base_cases : List (String × ℝ × ℝ))
    (random_cases : List (ℝ × ℝ)) (tolerance_lsb : ℤ)
    (htol : 0 ≤ tolerance_lsb) (v : ReferenceVector)
    (hv : v ∈ build_reference_vectors base_cases random_cases tolerance_lsb) :
    v.min_expected ≤ v.expected ∧ v.expected ≤ v.max_expected ∧
    v.expected = max 0 (min (round (v.exact_value * (2 : ℝ) ^ FRAC_BITS)) MASK) := by
  rcases List.mem_append.mp (List.mem_mergeSort.mp hv) with h | h
  · obtain ⟨c, _, rfl⟩ := List.mem_map.mp h
    exact append_case_spec _ _ _ _ htol
  · obtain ⟨c, _, rfl⟩ := List.mem_map.mp h
    exact append_case_spec _ _ _ _ htol

theorem reference_vector_tolerance_witness :
    (0 : ℤ) ≤ 0 ∧
    append_case "equal_5" 5 5 0 ∈ build_reference_vectors [("equal_5", 5, 5)] [] 0 ∧
    ((append_case "equal_5" 5 5 0).min_expected ≤ (append_case "equal_5" 5 5 0).expected ∧
     (append_case "equal_5" 5 5 0).expected ≤ (append_case "equal_5" 5 5 0).max_expected ∧
     (append_case "equal_5" 5 5 0).expected
       = max 0 (min (round ((append_case "equal_5" 5 5 0).exact_value *
           (2 : ℝ) ^ FRAC_BITS)) MASK)) := by
  have hmem : append_case "equal_5" 5 5 0 ∈
      build_reference_vectors [("equal_5", 5, 5)] [] 0 := by
    simp [build_reference_vectors]
  exact ⟨by decide, hmem,
    reference_vector_tolerance [("equal_5", 5, 5)] [] 0 (by decide) _ hmem⟩

end VectorModel
